import Mathlib

/-!
Verification of the candidate search/scoring/select pipeline of the
cover-art downloader
(Resources/Sandwicher/Downloaded Albums/rim_radio_downloader_fastmode_selectable_genrefolders.py).

The pure helper functions of that file (slug, parse_year_from_date,
soft_year_filter, title_similarity, dedup_by_image), the selector policy
App._maybe_autopick, the per-row decision structure of App._worker_thread,
and the difflib.SequenceMatcher ratio computation that title_similarity
calls into are shallowly embedded below.  Python dictionaries holding one
candidate are modelled by the structure Candidate; Python floats are
modelled by exact rationals; Python str values by Lean String / List Char
(character-level operations are modelled on ASCII, which covers every
input the proofs and counterexamples below evaluate on).
-/

set_option maxRecDepth 4000

/-- One discovered cover-art result.  The Python code passes dicts with
keys "provider", "title", "artist", "image", "thumb", "year"; dict.get
returns None for a missing key, so each metadata field is an Option.
Only the fields read by the verified pipeline are modelled. -/
structure Candidate where
  title : Option String
  year : Option Int
  image : Option String
deriving DecidableEq, Repr, Inhabited

/-! ## slug : filename sanitisation

Python source:

  def slug(s):
      s = (s or "").strip().replace("/", "_")
      s = re.sub(r"\s+", "_", s)
      s = re.sub(r"[^A-Za-z0-9._+-]+", "", s)
      return s[:180]
-/

/-- The whitespace characters recognised by str.strip() and the regex
class backslash-s (modelled on the ASCII range). -/
def isPySpace (c : Char) : Bool :=
  c = ' ' ∨ c = '\t' ∨ c = '\n' ∨ c = '\x0d' ∨ c = '\x0b' ∨ c = '\x0c'

/-- (s or "").strip() : remove leading and trailing whitespace. -/
def pyStrip (l : List Char) : List Char :=
  ((l.dropWhile isPySpace).reverse.dropWhile isPySpace).reverse

/-- .replace("/", "_") : every path separator becomes an underscore. -/
def replaceSlash (l : List Char) : List Char :=
  l.map (fun c => if c = '/' then '_' else c)

/-- re.sub(r"\s+", "_", s) : each maximal whitespace run becomes one
underscore. -/
def collapseWS : List Char → List Char
  | [] => []
  | c :: cs =>
      if isPySpace c then '_' :: collapseWS (cs.dropWhile isPySpace)
      else c :: collapseWS cs
termination_by l => l.length
decreasing_by
  · simpa using Nat.lt_succ_of_le (List.Sublist.length_le (List.dropWhile_sublist isPySpace))
  · simp

/-- The character class [A-Za-z0-9._+-] kept by the sanitiser. -/
def isSlugChar (c : Char) : Bool :=
  ('A' ≤ c ∧ c ≤ 'Z') ∨ ('a' ≤ c ∧ c ≤ 'z') ∨ ('0' ≤ c ∧ c ≤ '9') ∨
    c = '.' ∨ c = '_' ∨ c = '+' ∨ c = '-'

/-- def slug(s) from the source, stage by stage: strip, replace "/",
collapse whitespace runs, drop disallowed characters, truncate to 180. -/
def slug (s : String) : String :=
  ⟨((collapseWS (replaceSlash (pyStrip s.toList))).filter isSlugChar).take 180⟩

/-! ## parse_year_from_date

Python source:

  def parse_year_from_date(d):
      if not d:
          return None
      m = re.match(r"^(\d{4})", str(d))
      return int(m.group(1)) if m else None

re.match anchors at the start of the string, so the regex matches exactly
when the first four characters are decimal digits (modelled on ASCII
digits), and int() of the matched group is their positional value.
-/

def isDigitChar (c : Char) : Bool := '0' ≤ c ∧ c ≤ '9'

def digitVal (c : Char) : Nat := c.toNat - '0'.toNat

def parse_year_from_date (d : String) : Option Nat :=
  if d = "" then none
  else
    match d.toList with
    | c1 :: c2 :: c3 :: c4 :: _ =>
        if isDigitChar c1 ∧ isDigitChar c2 ∧ isDigitChar c3 ∧ isDigitChar c4 then
          some (digitVal c1 * 1000 + digitVal c2 * 100 + digitVal c3 * 10 + digitVal c4)
        else none
    | _ => none

/-- Modelled from the spec wording: the result is None, or the integer
denoted by a 4-digit prefix of the date-like string (first-match-wins on
a leading 4-digit sequence).  Compared against parse_year_from_date. -/
def specLeadingYear (s : String) : Option Nat :=
  let four := s.toList.take 4
  if four.length = 4 ∧ four.all isDigitChar then
    some (four.foldl (fun acc c => acc * 10 + digitVal c) 0)
  else none

/-! ## soft_year_filter

Python source:

  def soft_year_filter(candidates, target_year, tol):
      if target_year is None:
          return candidates
      Y = int(target_year); tol = max(0, int(tol))
      out = []
      for c in candidates:
          cy = c.get("year")
          if cy is None or abs(int(cy) - Y) <= tol:
              out.append(c)
      return out
-/

def soft_year_filter (candidates : List Candidate) (target_year : Option Int)
    (tol : Int) : List Candidate :=
  match target_year with
  | none => candidates
  | some ty => softYearGo ty (max 0 tol) candidates
where
  /-- the accumulation loop, with Y and the clamped tolerance fixed -/
  softYearGo (Y tolc : Int) : List Candidate → List Candidate
    | [] => []
    | c :: cs =>
        match c.year with
        | none => c :: softYearGo Y tolc cs
        | some cy => if |cy - Y| ≤ tolc then c :: softYearGo Y tolc cs
                     else softYearGo Y tolc cs

/-! ## dedup_by_image

Python source:

  def dedup_by_image(candidates):
      seen = set(); out = []
      for c in candidates:
          u = c.get("image")
          if u and u not in seen:
              seen.add(u); out.append(c)
      return out

"if u" is Python truthiness: u is not None and not the empty string.  The
set of already-seen URLs is modelled by a list used only for membership.
-/

def dedupAux (seen : List String) : List Candidate → List Candidate
  | [] => []
  | c :: cs =>
      match c.image with
      | some u =>
          if u ≠ "" ∧ u ∉ seen then c :: dedupAux (u :: seen) cs
          else dedupAux seen cs
      | none => dedupAux seen cs

def dedup_by_image (candidates : List Candidate) : List Candidate :=
  dedupAux [] candidates

/-! ## Aggregation of provider results

In App._worker_thread the enabled providers are submitted to a thread
pool and collected with as_completed:

  for fut in as_completed(jobs):
      try:
          part = fut.result() or []
          candidates.extend(part)
      except Exception as e:
          rowlog(f"provider error: {e}")

A provider call either returns a candidate list or raises; the round
receives the results in completion order.  The input below is that
completion-ordered list of per-provider outcomes (an arbitrary list
covers every completion order), and an exception is any Except.error. -/
def aggregate (results : List (Except String (List Candidate))) : List Candidate :=
  results.foldl
    (fun acc r =>
      match r with
      | .ok part => acc ++ part
      | .error _ => acc)
    []

/-! ## title_similarity and difflib.SequenceMatcher

Python source:

  def title_similarity(a, b):
      a = (a or "").lower()
      b = (b or "").lower()
      if not a or not b:
          return 0.0
      return SequenceMatcher(None, re.sub(r"[^a-z0-9]+","",a),
                             re.sub(r"[^a-z0-9]+","",b)).ratio()

The stdlib SequenceMatcher (isjunk=None, autojunk=True) is embedded
below over List Char, following CPython difflib:

* __chain_b builds b2j, the ascending list of positions of each element
  of the second sequence b; when len(b) >= 200, elements occurring more
  than len(b)//100 + 1 times are purged from b2j (autojunk).  With
  isjunk=None the junk set bjunk is empty, so the junk-extension loops
  of find_longest_match never fire and isbjunk is constantly false.
* find_longest_match runs the j2len dynamic program over rows
  i in [alo, ahi) (the dict j2len is modelled as a total function that
  is 0 outside its keys; the per-row "continue if j < blo, break when
  j >= bhi" over the ascending position list is the corresponding
  filter), then extends the best block over adjacent equal,
  non-junk elements on both sides.
* ratio sums the sizes of the recursively found matching blocks
  (the stdlib queue computes this same recursion iteratively; merging
  adjacent blocks does not change the sum) and returns
  2*M/(len(a)+len(b)), or 1.0 when both sequences are empty.
  Ratios are modelled as exact rationals.
-/

/-- Characters kept by re.sub(r"[^a-z0-9]+","",s). -/
def isSimChar (c : Char) : Bool :=
  ('a' ≤ c ∧ c ≤ 'z') ∨ ('0' ≤ c ∧ c ≤ '9')

/-- Ascending list of positions of c in b. -/
def positionsOf (b : List Char) (c : Char) : List Nat :=
  (List.range b.length).filter (fun j => b.getD j ' ' = c)

/-- b2j lookup including the autojunk purge of popular elements. -/
def b2j (b : List Char) (c : Char) : List Nat :=
  let idxs := positionsOf b c
  if 200 ≤ b.length ∧ b.length / 100 + 1 < idxs.length then [] else idxs

/-- The running best block (besti, bestj, bestsize) of
find_longest_match. -/
structure Best where
  besti : Nat
  bestj : Nat
  bestsize : Nat
deriving DecidableEq, Repr

/-- k = j2len.get(j-1, 0) + 1, the length of the chain ending at the
current cell; j2len.get(-1, 0) = 0 at j = 0. -/
def rowK (j2old : Nat → Nat) (j : Nat) : Nat :=
  (match j with | 0 => 0 | m + 1 => j2old m) + 1

/-- Inner loop of find_longest_match at row i: walk the valid positions
j of a[i] in b in ascending order, building the new j2len dict and
updating the best block on strict improvement (k > bestsize). -/
def flmRow (j2old : Nat → Nat) (i : Nat) :
    List Nat → (Nat → Nat) → Best → (Nat → Nat) × Best
  | [], nw, best => (nw, best)
  | j :: js, nw, best =>
      flmRow j2old i js (fun m => if m = j then rowK j2old j else nw m)
        (if best.bestsize < rowK j2old j then
          ⟨i + 1 - rowK j2old j, j + 1 - rowK j2old j, rowK j2old j⟩
        else best)

lemma flmRow_cons (j2old : Nat → Nat) (i j : Nat) (js : List Nat)
    (nw : Nat → Nat) (best : Best) :
    flmRow j2old i (j :: js) nw best =
      flmRow j2old i js (fun m => if m = j then rowK j2old j else nw m)
        (if best.bestsize < rowK j2old j then
          ⟨i + 1 - rowK j2old j, j + 1 - rowK j2old j, rowK j2old j⟩
        else best) := rfl

/-- One row of the main loop: the valid positions of a[i] are the
entries of b2j[a[i]] with blo <= j < bhi (the ascending b2j list makes
the "continue"/"break" of the source equivalent to this filter). -/
def flmStep (A : List Char) (bj : Char → List Nat) (blo bhi : Nat)
    (st : (Nat → Nat) × Best) (i : Nat) : (Nat → Nat) × Best :=
  flmRow st.1 i
    ((bj (A.getD i ' ')).filter (fun j => decide (blo ≤ j) && decide (j < bhi)))
    (fun _ => 0) st.2

/-- Main loop of find_longest_match over rows i in [alo, ahi), starting
from besti, bestj, bestsize = alo, blo, 0 and an empty j2len. -/
def flmMain (A : List Char) (bj : Char → List Nat) (alo ahi blo bhi : Nat) : Best :=
  ((List.range' alo (ahi - alo)).foldl (flmStep A bj blo bhi)
    ((fun _ => 0), ⟨alo, blo, 0⟩)).2

/-- First extension loop: grow the best block to the left over equal
(non-junk, and bjunk is empty) elements.  Each pass moves besti down by
one and stops once besti reaches alo, so a fuel of besti bounds the
iteration count; the loop guard always fails before the fuel runs out. -/
def extendLeft (A B : List Char) (alo blo : Nat) : Nat → Best → Best
  | 0, best => best
  | fuel + 1, best =>
      if alo < best.besti ∧ blo < best.bestj ∧
          A.getD (best.besti - 1) ' ' = B.getD (best.bestj - 1) ' ' then
        extendLeft A B alo blo fuel ⟨best.besti - 1, best.bestj - 1, best.bestsize + 1⟩
      else best

/-- Second extension loop: grow the best block to the right over equal
(non-junk) elements.  Each pass increases besti + bestsize by one and
stops once it reaches ahi, so a fuel of ahi bounds the iteration count;
the loop guard always fails before the fuel runs out. -/
def extendRight (A B : List Char) (ahi bhi : Nat) : Nat → Best → Best
  | 0, best => best
  | fuel + 1, best =>
      if best.besti + best.bestsize < ahi ∧ best.bestj + best.bestsize < bhi ∧
          A.getD (best.besti + best.bestsize) ' ' =
            B.getD (best.bestj + best.bestsize) ' ' then
        extendRight A B ahi bhi fuel ⟨best.besti, best.bestj, best.bestsize + 1⟩
      else best

/-- find_longest_match(alo, ahi, blo, bhi) with isjunk=None: main
dynamic-programming loop, then the two non-junk extension passes (the
junk passes are dead since bjunk is empty). -/
def find_longest_match (A B : List Char) (alo ahi blo bhi : Nat) : Best :=
  let m1 := flmMain A (b2j B) alo ahi blo bhi
  let m2 := extendLeft A B alo blo m1.besti m1
  extendRight A B ahi bhi ahi m2

/-- Total size of the matching blocks found by the recursive splitting
of get_matching_blocks: take the longest match of the current ranges,
then recurse on the part before it and the part after it.  fuel bounds
the recursion depth; every recursive call strictly shrinks ahi - alo,
so an initial fuel of A.length + B.length is never exhausted. -/
def matchTotal (A B : List Char) : Nat → Nat → Nat → Nat → Nat → Nat
  | 0, _, _, _, _ => 0
  | fuel + 1, alo, ahi, blo, bhi =>
      let m := find_longest_match A B alo ahi blo bhi
      if m.bestsize = 0 then 0
      else
        m.bestsize + matchTotal A B fuel alo m.besti blo m.bestj +
          matchTotal A B fuel (m.besti + m.bestsize) ahi (m.bestj + m.bestsize) bhi

/-- SequenceMatcher.ratio(): 2*M / (len(a)+len(b)) as an exact
rational; _calculate_ratio returns 1.0 when the total length is 0. -/
def smRatio (A B : List Char) : ℚ :=
  if A.length + B.length = 0 then 1
  else (2 * (matchTotal A B (A.length + B.length) 0 A.length 0 B.length) : ℚ) /
    ((A.length : ℚ) + (B.length : ℚ))

/-- def title_similarity(a, b) from the source.  Char.toLower models
str.lower on the ASCII range; emptiness of the lowered string equals
emptiness of the input. -/
def title_similarity (a b : String) : ℚ :=
  if a.toList.map Char.toLower = [] ∨ b.toList.map Char.toLower = [] then 0
  else
    smRatio ((a.toList.map Char.toLower).filter isSimChar)
      ((b.toList.map Char.toLower).filter isSimChar)

/-! ## App._maybe_autopick

Python source:

  def _maybe_autopick(self, artist, album, year, candidates):
      if not candidates: return None
      target_title = album or ""
      target_year = int(year) if year and str(year).isdigit() else None
      tol = int(self.year_tolerance.get())
      best = None; best_score = 0.0
      for c in candidates:
          score = title_similarity(target_title, c.get("title"))
          cy = c.get("year")
          if target_year is not None and cy is not None and abs(int(cy) - target_year) > tol:
              continue
          if score > best_score:
              best_score = score; best = c
      return best.get("image") if best and best_score >= 0.92 else None

The artist argument is unused.  year is the optional integer yr_int the
worker computed; "year and str(year).isdigit()" keeps it only when it is
a positive integer (0 is falsy, a negative rendering contains a minus
sign).  title_similarity receives c.get("title"), which may be None and is then
treated as "" inside title_similarity.
-/

/-- int(year) if year and str(year).isdigit() else None. -/
def targetYearOf (year : Option Int) : Option Int :=
  match year with
  | some y => if 0 < y then some y else none
  | none => none

/-- The similarity score given to a candidate. -/
def candScore (album : String) (c : Candidate) : ℚ :=
  title_similarity album (c.title.getD "")

/-- The year gate of the autopick loop: skip a candidate when the target
year and the candidate year are both known and differ by more than the
tolerance.  Note this gate uses the raw tolerance, unlike
soft_year_filter which clamps it to be nonnegative. -/
def yearRejected (target_year : Option Int) (tol : Int) (c : Candidate) : Bool :=
  match target_year, c.year with
  | some ty, some cy => tol < |cy - ty|
  | _, _ => false

/-- One step of the autopick loop on the state (best, best_score). -/
def autopickStep (album : String) (target_year : Option Int) (tol : Int)
    (st : Option Candidate × ℚ) (c : Candidate) : Option Candidate × ℚ :=
  let score := candScore album c
  if yearRejected target_year tol c then st
  else if st.2 < score then (some c, score) else st

/-- App._maybe_autopick.  The result is best.get("image") when a best
candidate exists and its score reaches 0.92, else None. -/
def maybe_autopick (album : String) (year : Option Int) (tol : Int)
    (candidates : List Candidate) : Option String :=
  if candidates = [] then none
  else
    match candidates.foldl (autopickStep album (targetYearOf year) tol) (none, 0) with
    | (some c, best_score) => if (92 : ℚ) / 100 ≤ best_score then c.image else none
    | (none, _) => none

/-- Modelled from the spec wording of the claims: auto-pick returns the
image URL of the first candidate, in list order, attaining the maximum
similarity score among the candidates not rejected by the year gate,
provided that maximum is at least 0.92, and None otherwise.  Compared
against maybe_autopick. -/
def autopickFirstBest (album : String) (year : Option Int) (tol : Int)
    (candidates : List Candidate) : Option String :=
  let survivors := candidates.filter (fun c => ¬ yearRejected (targetYearOf year) tol c)
  let m := survivors.foldl (fun acc c => max acc (candScore album c)) 0
  if (92 : ℚ) / 100 ≤ m then
    match survivors.find? (fun c => candScore album c = m) with
    | some c => c.image
    | none => none
  else none

/-! ## One resolution round of App._worker_thread

The decision structure of the loop body, between aggregation and the
save/escalation actions:

  candidates = soft_year_filter(candidates, yr_int, self.year_tolerance.get())
  candidates = dedup_by_image(candidates)
  if not candidates:
      ... "Not found" ...; break
  url = None
  if not self.ask_always.get():
      url = self._maybe_autopick(artist, album, yr_int, candidates)
  if not url:
      if len(candidates) > 1 or self.ask_always.get():
          ... escalate to the user dialog ...
      else:
          url = candidates[0]["image"]
  ... download url and save ...

Escalation (the dialog wait, retry and skip handling) involves the GUI
thread and is modelled as the single terminal Escalated; reaching the
download with a url is Resolved.  "if not url" is Python truthiness on
None and "".  candidates[0]["image"] is defined because dedup_by_image
only retains candidates with a non-empty image URL. -/

inductive RoundOutcome where
  | NotFound
  | Resolved (url : String)
  | Escalated
deriving DecidableEq, Repr

def resolution_round (raw : List Candidate) (yr_int : Option Int) (tol : Int)
    (ask_always : Bool) (album : String) : RoundOutcome :=
  let candidates := dedup_by_image (soft_year_filter raw yr_int tol)
  if candidates = [] then .NotFound
  else
    let url : Option String :=
      if ask_always then none else maybe_autopick album yr_int tol candidates
    if url.getD "" = "" then
      if 1 < candidates.length ∨ ask_always then .Escalated
      else .Resolved ((candidates.headD default).image.getD "")
    else .Resolved (url.getD "")

/-! ## Lemmas about slug (claims C7 and C9) -/

lemma mem_slug_isSlugChar {s : String} {c : Char} (hc : c ∈ (slug s).toList) :
    isSlugChar c = true := by
  have : (slug s).toList =
      ((collapseWS (replaceSlash (pyStrip s.toList))).filter isSlugChar).take 180 := rfl
  rw [this] at hc
  exact List.of_mem_filter (List.mem_of_mem_take hc)

lemma slug_length_le (s : String) : (slug s).toList.length ≤ 180 := by
  have : (slug s).toList =
      ((collapseWS (replaceSlash (pyStrip s.toList))).filter isSlugChar).take 180 := rfl
  rw [this]
  exact List.length_take_le _ _

lemma isSlugChar_not_pySpace {c : Char} (h : isSlugChar c = true) :
    isPySpace c = false := by
  by_contra hsp
  have hsp' : isPySpace c = true := by
    cases hp : isPySpace c
    · exact absurd hp hsp
    · rfl
  have : c = ' ' ∨ c = '\t' ∨ c = '\n' ∨ c = '\x0d' ∨ c = '\x0b' ∨ c = '\x0c' := by
    simpa [isPySpace] using hsp'
  rcases this with rfl | rfl | rfl | rfl | rfl | rfl <;> simp [isSlugChar] at h

lemma isSlugChar_ne_slash {c : Char} (h : isSlugChar c = true) : c ≠ '/' := by
  rintro rfl
  exact absurd h (by decide)

lemma dropWhile_eq_self_of_not {p : Char → Bool} {l : List Char}
    (h : ∀ c ∈ l, p c = false) : l.dropWhile p = l := by
  cases l with
  | nil => rfl
  | cons c cs => rw [List.dropWhile_cons_of_neg (by simp [h c (by simp)])]

lemma pyStrip_eq_self {l : List Char} (h : ∀ c ∈ l, isPySpace c = false) :
    pyStrip l = l := by
  unfold pyStrip
  rw [dropWhile_eq_self_of_not h,
    dropWhile_eq_self_of_not (fun c hc => h c (List.mem_reverse.mp hc)),
    List.reverse_reverse]

lemma replaceSlash_eq_self {l : List Char} (h : '/' ∉ l) : replaceSlash l = l := by
  induction l with
  | nil => rfl
  | cons c cs ih =>
      have hc : c ≠ '/' := fun hc => h (hc ▸ List.mem_cons_self c cs)
      simp only [replaceSlash, List.map_cons, if_neg hc]
      have := ih (fun hm => h (List.mem_cons_of_mem c hm))
      simpa [replaceSlash] using this

lemma collapseWS_eq_self {l : List Char} (h : ∀ c ∈ l, isPySpace c = false) :
    collapseWS l = l := by
  induction l with
  | nil => simp [collapseWS]
  | cons c cs ih =>
      rw [collapseWS]
      rw [if_neg (by simp [h c (by simp)])]
      exact congrArg (c :: ·) (ih (fun d hd => h d (List.mem_cons_of_mem c hd)))

/-- C7: for every input string, the sanitised filename contains only
characters from [A-Za-z0-9._+-] (in particular no path separator) and
has length at most 180. -/
theorem C7_slug_sanitizes (s : String) :
    (∀ c ∈ (slug s).toList, isSlugChar c = true) ∧
      '/' ∉ (slug s).toList ∧ (slug s).toList.length ≤ 180 :=
  ⟨fun _ hc => mem_slug_isSlugChar hc,
   fun hc => isSlugChar_ne_slash (mem_slug_isSlugChar hc) rfl,
   slug_length_le s⟩

/-- Witness for C7 at the spec example "Sigur Rós/Ágætis byrjun". -/
theorem C7_slug_sanitizes_witness :
    ((slug "Sigur Rós/Ágætis byrjun").toList.all isSlugChar = true) ∧
      '/' ∉ (slug "Sigur Rós/Ágætis byrjun").toList ∧
      (slug "Sigur Rós/Ágætis byrjun").toList.length ≤ 180 :=
  ⟨List.all_eq_true.mpr (fun c hc => (C7_slug_sanitizes _).1 c hc),
   (C7_slug_sanitizes _).2.1, (C7_slug_sanitizes _).2.2⟩

/-- C9: the filename sanitiser is idempotent, since its output contains
no whitespace, no path separator, only characters from the allowed set,
and is already at most 180 characters long. -/
theorem C9_slug_idempotent (s : String) : slug (slug s) = slug s := by
  have hallow : ∀ c ∈ (slug s).toList, isSlugChar c = true :=
    fun _ hc => mem_slug_isSlugChar hc
  have hsp : ∀ c ∈ (slug s).toList, isPySpace c = false :=
    fun c hc => isSlugChar_not_pySpace (hallow c hc)
  have hns : '/' ∉ (slug s).toList :=
    fun hc => isSlugChar_ne_slash (hallow _ hc) rfl
  show (⟨_⟩ : String) = slug s
  rw [pyStrip_eq_self hsp, replaceSlash_eq_self hns, collapseWS_eq_self hsp,
    List.filter_eq_self.mpr hallow, List.take_of_length_le (slug_length_le s)]
  rfl

/-! ## Claim C8 : year normalisation -/

/-- C8: parse_year_from_date returns exactly the integer denoted by a
leading 4-digit sequence of the date-like string (first-match-wins,
i.e. the first four characters when they are all digits), and None when
the string has no 4-digit prefix. -/
theorem C8_parse_year_leading (s : String) :
    parse_year_from_date s = specLeadingYear s := by
  obtain ⟨l⟩ := s
  have hempty : ((⟨l⟩ : String) = "") ↔ l = [] := by
    constructor
    · intro h; exact congrArg String.data h
    · intro h; rw [h]
  rcases l with _ | ⟨c1, _ | ⟨c2, _ | ⟨c3, _ | ⟨c4, rest⟩⟩⟩⟩
  · simp [parse_year_from_date, specLeadingYear, hempty]
  · simp [parse_year_from_date, specLeadingYear, hempty, String.toList]
  · simp [parse_year_from_date, specLeadingYear, hempty, String.toList]
  · simp [parse_year_from_date, specLeadingYear, hempty, String.toList]
  · rw [parse_year_from_date, if_neg (by rw [hempty]; simp)]
    show _ = specLeadingYear ⟨c1 :: c2 :: c3 :: c4 :: rest⟩
    rw [specLeadingYear]
    simp only [String.toList]
    by_cases hd : isDigitChar c1 ∧ isDigitChar c2 ∧ isDigitChar c3 ∧ isDigitChar c4
    · rw [if_pos hd]
      have : ((c1 :: c2 :: c3 :: c4 :: rest).take 4) = [c1, c2, c3, c4] := rfl
      rw [this]
      rw [if_pos (by simpa [List.all_cons] using hd)]
      simp only [List.foldl_cons, List.foldl_nil]
      congr 1
      ring
    · rw [if_neg hd]
      have htake : ((c1 :: c2 :: c3 :: c4 :: rest).take 4) = [c1, c2, c3, c4] := rfl
      rw [htake]
      have hiff : (([c1, c2, c3, c4] : List Char).length = 4 ∧
          ([c1, c2, c3, c4] : List Char).all isDigitChar = true) ↔
          (isDigitChar c1 ∧ isDigitChar c2 ∧ isDigitChar c3 ∧ isDigitChar c4) := by
        simp [List.all_cons]
      rw [if_neg (fun hcon => hd (hiff.mp hcon))]

/-! ## Claim C3 : soft_year_filter -/

/-- The retention predicate stated by the spec: keep a candidate whose
year is unknown, or within the (clamped) tolerance of the target. -/
def yearKeep (Y tolc : Int) (c : Candidate) : Bool :=
  match c.year with
  | none => true
  | some cy => |cy - Y| ≤ tolc

lemma softYearGo_eq_filter (Y tolc : Int) (cs : List Candidate) :
    soft_year_filter.softYearGo Y tolc cs = cs.filter (yearKeep Y tolc) := by
  induction cs with
  | nil => rfl
  | cons c cs ih =>
      cases hy : c.year with
      | none =>
          simp only [soft_year_filter.softYearGo, hy, List.filter_cons]
          rw [if_pos (by simp [yearKeep, hy])]
          exact congrArg (c :: ·) ih
      | some cy =>
          simp only [soft_year_filter.softYearGo, hy, List.filter_cons]
          by_cases habs : |cy - Y| ≤ tolc
          · rw [if_pos habs, if_pos (by simp [yearKeep, hy, habs])]
            exact congrArg (c :: ·) ih
          · rw [if_neg habs, if_neg (by simp [yearKeep, hy, habs])]
            exact ih

/-- C3: with no target year, soft_year_filter returns its input
unchanged; with a target year it retains exactly the candidates whose
year is unknown or within max(0, tol) of the target (the tolerance is
clamped to be nonnegative); in particular a candidate with an unknown
year is always retained. -/
theorem C3_soft_year_filter (cs : List Candidate) (tol : Int) :
    soft_year_filter cs none tol = cs ∧
      (∀ Y : Int, soft_year_filter cs (some Y) tol = cs.filter (yearKeep Y (max 0 tol))) ∧
      (∀ ty : Option Int, ∀ c ∈ cs, c.year = none → c ∈ soft_year_filter cs ty tol) := by
  refine ⟨rfl, fun Y => softYearGo_eq_filter Y (max 0 tol) cs, ?_⟩
  intro ty c hc hy
  cases ty with
  | none => exact hc
  | some Y =>
      show c ∈ soft_year_filter.softYearGo Y (max 0 tol) cs
      rw [softYearGo_eq_filter]
      exact List.mem_filter.mpr ⟨hc, by simp [yearKeep, hy]⟩

/-- Witness for C3: a year-less candidate is kept for an arbitrary
target year. -/
theorem C3_soft_year_filter_witness :
    (⟨some "t", none, some "u"⟩ : Candidate) ∈
      soft_year_filter [⟨some "t", none, some "u"⟩] (some 1997) (-3) :=
  (C3_soft_year_filter [⟨some "t", none, some "u"⟩] (-3)).2.2 (some 1997)
    ⟨some "t", none, some "u"⟩ (by simp) rfl

/-! ## Claim C6 : aggregation isolates provider failures -/

lemma aggregate_foldl (rs : List (Except String (List Candidate)))
    (acc : List Candidate) :
    rs.foldl
      (fun acc r => match r with | .ok part => acc ++ part | .error _ => acc) acc =
      acc ++ (rs.filterMap (fun r => match r with
        | .ok part => some part | .error _ => none)).flatten := by
  induction rs generalizing acc with
  | nil => simp
  | cons r rs ih =>
      cases r with
      | ok part => simp [List.foldl_cons, ih, List.filterMap_cons]
      | error e => simp [List.foldl_cons, ih, List.filterMap_cons]

/-- C6: the aggregated output is exactly the concatenation, in
completion order, of the candidate lists returned by the non-failing
providers; failing providers contribute nothing, and aggregation is a
total function (no exception reaches the caller of the round). -/
theorem C6_aggregate_isolates_failures (rs : List (Except String (List Candidate))) :
    aggregate rs = (rs.filterMap (fun r => match r with
      | .ok part => some part | .error _ => none)).flatten := by
  simpa using aggregate_foldl rs []

/-! ## Claim C4 : dedup_by_image -/

lemma dedupAux_cons_none {c : Candidate} (him : c.image = none)
    (seen : List String) (cs : List Candidate) :
    dedupAux seen (c :: cs) = dedupAux seen cs := by
  rw [dedupAux, him]

lemma dedupAux_cons_keep {c : Candidate} {u : String} {seen : List String}
    (him : c.image = some u) (hk : u ≠ "" ∧ u ∉ seen) (cs : List Candidate) :
    dedupAux seen (c :: cs) = c :: dedupAux (u :: seen) cs := by
  rw [dedupAux, him]
  exact if_pos hk

lemma dedupAux_cons_drop {c : Candidate} {u : String} {seen : List String}
    (him : c.image = some u) (hk : ¬ (u ≠ "" ∧ u ∉ seen)) (cs : List Candidate) :
    dedupAux seen (c :: cs) = dedupAux seen cs := by
  rw [dedupAux, him]
  exact if_neg hk

lemma dedupAux_sublist (seen : List String) (cs : List Candidate) :
    (dedupAux seen cs).Sublist cs := by
  induction cs generalizing seen with
  | nil => simp [dedupAux]
  | cons c cs ih =>
      cases him : c.image with
      | none => rw [dedupAux_cons_none him]; exact (ih seen).cons c
      | some u =>
          by_cases hk : u ≠ "" ∧ u ∉ seen
          · rw [dedupAux_cons_keep him hk]; exact (ih (u :: seen)).cons₂ c
          · rw [dedupAux_cons_drop him hk]; exact (ih seen).cons c

lemma dedupAux_good (seen : List String) (cs : List Candidate) :
    ∀ c ∈ dedupAux seen cs, ∃ u, c.image = some u ∧ u ≠ "" ∧ u ∉ seen := by
  induction cs generalizing seen with
  | nil => simp [dedupAux]
  | cons c cs ih =>
      intro d hd
      cases him : c.image with
      | none => exact ih seen d (by rwa [dedupAux_cons_none him] at hd)
      | some u =>
          by_cases hk : u ≠ "" ∧ u ∉ seen
          · rw [dedupAux_cons_keep him hk] at hd
            rcases List.mem_cons.mp hd with rfl | hd'
            · exact ⟨u, him, hk.1, hk.2⟩
            · obtain ⟨v, hv, hv1, hv2⟩ := ih (u :: seen) d hd'
              exact ⟨v, hv, hv1, fun hvs => hv2 (List.mem_cons_of_mem u hvs)⟩
          · rw [dedupAux_cons_drop him hk] at hd
            exact ih seen d hd

lemma dedupAux_pairwise (seen : List String) (cs : List Candidate) :
    (dedupAux seen cs).Pairwise (fun a b => a.image ≠ b.image) := by
  induction cs generalizing seen with
  | nil => simp [dedupAux]
  | cons c cs ih =>
      cases him : c.image with
      | none => rw [dedupAux_cons_none him]; exact ih seen
      | some u =>
          by_cases hk : u ≠ "" ∧ u ∉ seen
          · rw [dedupAux_cons_keep him hk]
            refine List.Pairwise.cons ?_ (ih (u :: seen))
            intro d hd hcd
            obtain ⟨v, hv, _, hv2⟩ := dedupAux_good (u :: seen) cs d hd
            rw [him, hv] at hcd
            have hvu : v = u := (Option.some.inj hcd).symm
            exact hv2 (hvu ▸ List.mem_cons_self u seen)
          · rw [dedupAux_cons_drop him hk]; exact ih seen

lemma dedupAux_find? (seen : List String) (cs : List Candidate) (u : String)
    (hu : u ≠ "") (hus : u ∉ seen) :
    (dedupAux seen cs).find? (fun c => c.image = some u) =
      cs.find? (fun c => c.image = some u) := by
  induction cs generalizing seen with
  | nil => simp [dedupAux]
  | cons c cs ih =>
      cases him : c.image with
      | none =>
          rw [dedupAux_cons_none him, List.find?_cons_of_neg _ (by simp [him])]
          exact ih seen hus
      | some v =>
          by_cases hk : v ≠ "" ∧ v ∉ seen
          · rw [dedupAux_cons_keep him hk]
            by_cases hv : v = u
            · subst hv
              rw [List.find?_cons_of_pos _ (by simp [him]),
                List.find?_cons_of_pos _ (by simp [him])]
            · rw [List.find?_cons_of_neg _ (by simp [him, hv]),
                List.find?_cons_of_neg _ (by simp [him, hv])]
              refine ih (v :: seen) ?_
              intro hmem
              rcases List.mem_cons.mp hmem with h | h
              · exact hv h.symm
              · exact hus h
          · rw [dedupAux_cons_drop him hk]
            have hnc : ¬ (c.image = some u) := by
              rw [him]
              intro hc
              have hvu : v = u := Option.some.inj hc
              subst hvu
              rcases not_and_or.mp hk with h1 | h2
              · exact hu (by simpa using h1)
              · exact hus (by simpa using h2)
            rw [List.find?_cons_of_neg _ (by simpa using hnc)]
            exact ih seen hus

/-- C4: dedup_by_image returns a subsequence of its input (first-seen
relative order preserved) in which all retained candidates have a
non-empty image URL, no two retained candidates share an image URL, and
for every non-empty URL the retained representative is exactly the first
input candidate carrying that URL. -/
theorem C4_dedup_by_image (cs : List Candidate) :
    (dedup_by_image cs).Sublist cs ∧
      (∀ c ∈ dedup_by_image cs, ∃ u, c.image = some u ∧ u ≠ "") ∧
      (dedup_by_image cs).Pairwise (fun a b => a.image ≠ b.image) ∧
      (∀ u : String, u ≠ "" →
        (dedup_by_image cs).find? (fun c => c.image = some u) =
          cs.find? (fun c => c.image = some u)) :=
  ⟨dedupAux_sublist [] cs,
   fun c hc => by
     obtain ⟨u, h1, h2, _⟩ := dedupAux_good [] cs c hc
     exact ⟨u, h1, h2⟩,
   dedupAux_pairwise [] cs,
   fun u hu => dedupAux_find? [] cs u hu (by simp)⟩

/-- Witness for C4 on a concrete list with a duplicate URL, an empty
URL and a missing URL. -/
theorem C4_dedup_by_image_witness :
    (dedup_by_image [⟨some "a", none, some "u"⟩, ⟨some "b", none, some ""⟩,
        ⟨some "c", none, none⟩, ⟨some "d", none, some "u"⟩]).find?
        (fun c => c.image = some "u") =
      ([⟨some "a", none, some "u"⟩, ⟨some "b", none, some ""⟩,
        ⟨some "c", none, none⟩, ⟨some "d", none, some "u"⟩] :
          List Candidate).find? (fun c => c.image = some "u") :=
  (C4_dedup_by_image _).2.2.2 "u" (by decide)

/-! ## Claim C1 : the autopick selector policy -/

/-- The score-tracking part of the autopick loop, once the year gate has
passed. -/
def updStep (album : String) (st : Option Candidate × ℚ) (c : Candidate) :
    Option Candidate × ℚ :=
  if st.2 < candScore album c then (some c, candScore album c) else st

lemma autopickStep_eq (album : String) (ty : Option Int) (tol : Int)
    (st : Option Candidate × ℚ) (c : Candidate) :
    autopickStep album ty tol st c =
      if yearRejected ty tol c then st else updStep album st c := rfl

lemma foldl_autopickStep_filter (album : String) (ty : Option Int) (tol : Int)
    (l : List Candidate) (st : Option Candidate × ℚ) :
    l.foldl (autopickStep album ty tol) st =
      (l.filter (fun c => ¬ yearRejected ty tol c)).foldl (updStep album) st := by
  induction l generalizing st with
  | nil => rfl
  | cons c l ih =>
      rw [List.foldl_cons, List.filter_cons]
      by_cases hr : yearRejected ty tol c
      · rw [autopickStep_eq, if_pos hr, if_neg (by simp [hr])]
        exact ih st
      · rw [autopickStep_eq, if_neg hr, if_pos (by simp [hr])]
        rw [List.foldl_cons]
        exact ih (updStep album st c)

lemma updStep_snd (album : String) (st : Option Candidate × ℚ) (c : Candidate) :
    (updStep album st c).2 = max st.2 (candScore album c) := by
  rw [updStep]
  by_cases h : st.2 < candScore album c
  · rw [if_pos h]; exact (max_eq_right h.le).symm
  · rw [if_neg h]; exact (max_eq_left (le_of_not_lt h)).symm

lemma foldl_updStep_snd (album : String) (l : List Candidate)
    (st : Option Candidate × ℚ) :
    (l.foldl (updStep album) st).2 =
      l.foldl (fun m c => max m (candScore album c)) st.2 := by
  induction l generalizing st with
  | nil => rfl
  | cons c l ih =>
      rw [List.foldl_cons, List.foldl_cons, ih, updStep_snd]

lemma le_foldl_maxScore (album : String) (l : List Candidate) (s : ℚ) :
    s ≤ l.foldl (fun m c => max m (candScore album c)) s := by
  induction l generalizing s with
  | nil => exact le_refl s
  | cons c l ih =>
      rw [List.foldl_cons]
      exact le_trans (le_max_left _ _) (ih (max s (candScore album c)))

lemma mem_le_foldl_maxScore (album : String) (l : List Candidate) (s : ℚ) :
    ∀ c ∈ l, candScore album c ≤ l.foldl (fun m c => max m (candScore album c)) s := by
  induction l generalizing s with
  | nil => intro c hc; exact absurd hc (List.not_mem_nil c)
  | cons d l ih =>
      intro c hc
      rw [List.foldl_cons]
      rcases List.mem_cons.mp hc with rfl | hc'
      · exact le_trans (le_max_right s _) (le_foldl_maxScore album l _)
      · exact ih (max s (candScore album d)) c hc'

lemma foldl_updStep_fst (album : String) (l : List Candidate) :
    ∀ (b : Option Candidate) (s M : ℚ),
      M = l.foldl (fun m c => max m (candScore album c)) s →
      (M = s → (l.foldl (updStep album) (b, s)).1 = b) ∧
      (s < M → (l.foldl (updStep album) (b, s)).1 =
        l.find? (fun c => M ≤ candScore album c)) := by
  induction l with
  | nil =>
      intro b s M hM
      simp only [List.foldl_nil] at hM
      subst hM
      exact ⟨fun _ => rfl, fun hs => absurd hs (lt_irrefl _)⟩
  | cons c l ih =>
      intro b s M hM
      rw [List.foldl_cons] at hM
      rw [List.foldl_cons]
      by_cases hlt : s < candScore album c
      · have hstep : updStep album (b, s) c = (some c, candScore album c) := by
          rw [updStep, if_pos hlt]
        rw [hstep]
        have hmax : max s (candScore album c) = candScore album c := max_eq_right hlt.le
        rw [hmax] at hM
        have hMge : candScore album c ≤ M := hM ▸ le_foldl_maxScore album l _
        constructor
        · intro hMs
          exact absurd (lt_of_lt_of_le hlt (hMs ▸ hMge)) (lt_irrefl s)
        · intro _
          rcases eq_or_lt_of_le hMge with heq | hne
          · rw [List.find?_cons_of_pos _ (by simp [heq])]
            exact (ih (some c) (candScore album c) M hM).1 heq.symm
          · rw [List.find?_cons_of_neg _ (by simp [not_le.mpr hne])]
            exact (ih (some c) (candScore album c) M hM).2 hne
      · have hstep : updStep album (b, s) c = (b, s) := by
          rw [updStep, if_neg hlt]
        rw [hstep]
        have hmax : max s (candScore album c) = s := max_eq_left (le_of_not_lt hlt)
        rw [hmax] at hM
        constructor
        · exact fun hMs => (ih b s M hM).1 hMs
        · intro hsM
          have hcM : candScore album c < M := lt_of_le_of_lt (le_of_not_lt hlt) hsM
          rw [List.find?_cons_of_neg _ (by simp [not_le.mpr hcM])]
          exact (ih b s M hM).2 hsM

lemma find?_congr_on {α : Type} (l : List α) (p q : α → Bool)
    (h : ∀ c ∈ l, p c = q c) : l.find? p = l.find? q := by
  induction l with
  | nil => rfl
  | cons c l ih =>
      cases hp : p c with
      | true =>
          rw [List.find?_cons_of_pos _ hp,
            List.find?_cons_of_pos _ ((h c (by simp)) ▸ hp)]
      | false =>
          rw [List.find?_cons_of_neg _ (by simp [hp]),
            List.find?_cons_of_neg _ (by simp [← h c (by simp), hp])]
          exact ih (fun d hd => h d (List.mem_cons_of_mem c hd))

/-- C1: for every query and candidate list, the autopick loop returns
the image URL of the first candidate, in list order, attaining the
maximum similarity score among the candidates not rejected by the year
gate, provided that maximum is at least 0.92, and None otherwise.  In
particular it never returns a year-rejected candidate, and ties at the
maximum are resolved in favour of the first-seen candidate. -/
theorem C1_autopick_first_best (album : String) (year : Option Int) (tol : Int)
    (cs : List Candidate) :
    maybe_autopick album year tol cs = autopickFirstBest album year tol cs := by
  by_cases hcs : cs = []
  · subst hcs
    rw [maybe_autopick, autopickFirstBest]
    norm_num
  · rw [maybe_autopick, if_neg hcs, autopickFirstBest]
    set ty := targetYearOf year with hty
    set S := cs.filter (fun c => ¬ yearRejected ty tol c) with hS
    set M := S.foldl (fun m c => max m (candScore album c)) 0 with hM
    have hfold : cs.foldl (autopickStep album ty tol) (none, 0) =
        S.foldl (updStep album) (none, 0) := foldl_autopickStep_filter album ty tol cs _
    rw [hfold]
    rcases hres : S.foldl (updStep album) ((none, 0) : Option Candidate × ℚ) with ⟨bf, bs⟩
    have hsnd : bs = M := by
      have h2 := foldl_updStep_snd album S ((none, 0) : Option Candidate × ℚ)
      rw [hres] at h2
      exact h2
    subst hsnd
    by_cases h92 : (92 : ℚ) / 100 ≤ M
    · have h0 : (0 : ℚ) < M := lt_of_lt_of_le (by norm_num) h92
      have hfst : bf = S.find? (fun c => M ≤ candScore album c) := by
        have h1 := (foldl_updStep_fst album S none 0 M hM).2 h0
        rw [hres] at h1
        exact h1
      have hcongr : S.find? (fun c => M ≤ candScore album c) =
          S.find? (fun c => candScore album c = M) := by
        refine find?_congr_on S _ _ (fun c hc => ?_)
        have hle : candScore album c ≤ M := hM ▸ mem_le_foldl_maxScore album S 0 c hc
        by_cases he : candScore album c = M
        · simp [he]
        · simp [he, not_le.mpr (lt_of_le_of_ne hle he)]
      rw [if_pos h92]
      rw [hfst, hcongr]
      cases hfind : S.find? (fun c => candScore album c = M) with
      | none => rfl
      | some c =>
          show (if (92 : ℚ) / 100 ≤ M then c.image else none) = c.image
          rw [if_pos h92]
    · rw [if_neg h92]
      cases bf with
      | none => rfl
      | some c =>
          show (if (92 : ℚ) / 100 ≤ M then c.image else none) = none
          rw [if_neg h92]

/-! ## Claims C2 and C10 : properties of title_similarity -/

/-- The normalisation applied by title_similarity before matching:
lowercase, then drop every character outside [a-z0-9]. -/
def simNorm (s : String) : List Char :=
  (s.toList.map Char.toLower).filter isSimChar

lemma toList_eq_nil_iff (s : String) : s.toList = [] ↔ s = "" := by
  obtain ⟨l⟩ := s
  constructor
  · intro h
    show (⟨l⟩ : String) = ⟨[]⟩
    exact congrArg String.mk h
  · intro h
    exact congrArg String.data h

lemma lower_nil_iff (s : String) : s.toList.map Char.toLower = [] ↔ s = "" := by
  rw [List.map_eq_nil_iff]
  exact toList_eq_nil_iff s

lemma title_similarity_eq (a b : String) :
    title_similarity a b =
      if a = "" ∨ b = "" then 0 else smRatio (simNorm a) (simNorm b) := by
  rw [title_similarity]
  by_cases ha : a = ""
  · rw [if_pos (Or.inl ((lower_nil_iff a).mpr ha)), if_pos (Or.inl ha)]
  · by_cases hb : b = ""
    · rw [if_pos (Or.inr ((lower_nil_iff b).mpr hb)), if_pos (Or.inr hb)]
    · have hcond : ¬(a.toList.map Char.toLower = [] ∨ b.toList.map Char.toLower = []) := by
        rintro (h | h)
        · exact ha ((lower_nil_iff a).mp h)
        · exact hb ((lower_nil_iff b).mp h)
      rw [if_neg hcond, if_neg (by rintro (h | h); exacts [ha h, hb h])]
      rfl

/-- C10: when both inputs are non-empty but normalise to the empty
string (for instance titles made only of punctuation), the similarity
is the maximal 1.0 - above the 0.92 auto-pick threshold - even though
the raw strings share no characters; and with an empty input the
similarity is 0.0. -/
theorem C10_punctuation_similarity (a b : String)
    (hna : simNorm a = []) (hnb : simNorm b = []) :
    (a ≠ "" → b ≠ "" →
      title_similarity a b = 1 ∧ (92 : ℚ) / 100 ≤ title_similarity a b) ∧
      (a = "" ∨ b = "" → title_similarity a b = 0) := by
  constructor
  · intro ha hb
    have h1 : title_similarity a b = smRatio [] [] := by
      rw [title_similarity_eq, if_neg (by rintro (h | h); exacts [ha h, hb h]),
        hna, hnb]
    have h2 : smRatio [] [] = 1 := by rw [smRatio]; norm_num
    rw [h1, h2]
    norm_num
  · intro hab
    rw [title_similarity_eq, if_pos hab]

/-- Witness for C10 at the all-punctuation titles "!!!" and "???". -/
theorem C10_punctuation_similarity_witness :
    title_similarity "!!!" "???" = 1 ∧ (92 : ℚ) / 100 ≤ title_similarity "!!!" "???" :=
  (C10_punctuation_similarity "!!!" "???" (by decide) (by decide)).1
    (by decide) (by decide)

/-- Counterexample for C2: the similarity is not symmetric.  difflib's
matching-blocks ratio depends on the argument order; on the pair
"tide" / "diet" the two orders give 0.25 and 0.5. -/
theorem C2_similarity_not_symmetric :
    title_similarity "tide" "diet" = 1 / 4 ∧
      title_similarity "diet" "tide" = 1 / 2 ∧
      title_similarity "tide" "diet" ≠ title_similarity "diet" "tide" := by
  have hA : simNorm "tide" = "tide".toList := by decide
  have hB : simNorm "diet" = "diet".toList := by decide
  have hl1 : "tide".toList.length = 4 := by decide
  have hl2 : "diet".toList.length = 4 := by decide
  have hm1 : matchTotal "tide".toList "diet".toList (4 + 4) 0 4 0 4 = 1 := by decide
  have hm2 : matchTotal "diet".toList "tide".toList (4 + 4) 0 4 0 4 = 2 := by decide
  have h1 : title_similarity "tide" "diet" = 1 / 4 := by
    rw [title_similarity_eq, if_neg (by decide), hA, hB,
      smRatio, hl1, hl2, if_neg (by norm_num), hm1]
    norm_num
  have h2 : title_similarity "diet" "tide" = 1 / 2 := by
    rw [title_similarity_eq, if_neg (by decide), hB, hA,
      smRatio, hl2, hl1, if_neg (by norm_num), hm2]
    norm_num
  exact ⟨h1, h2, by rw [h1, h2]; norm_num⟩


/-! ## Range bounds of find_longest_match (used for the ratio bounds) -/

lemma rowK_zero (j2old : Nat → Nat) : rowK j2old 0 = 1 := rfl

lemma rowK_succ (j2old : Nat → Nat) (m : Nat) : rowK j2old (m + 1) = j2old m + 1 := rfl

lemma flmRow_bounds {alo ahi blo bhi : Nat} (j2old : Nat → Nat) (i : Nat)
    (hia : alo ≤ i) (hih : i < ahi)
    (hold : ∀ j, j2old j ≤ i - alo ∧ j2old j ≤ j + 1 - blo)
    (js : List Nat) :
    ∀ (nw : Nat → Nat) (best : Best),
      (∀ j ∈ js, blo ≤ j ∧ j < bhi) →
      (∀ j, nw j ≤ i + 1 - alo ∧ nw j ≤ j + 1 - blo) →
      alo ≤ best.besti → blo ≤ best.bestj →
      best.besti + best.bestsize ≤ ahi → best.bestj + best.bestsize ≤ bhi →
      (∀ j, (flmRow j2old i js nw best).1 j ≤ i + 1 - alo ∧
          (flmRow j2old i js nw best).1 j ≤ j + 1 - blo) ∧
        alo ≤ (flmRow j2old i js nw best).2.besti ∧
        blo ≤ (flmRow j2old i js nw best).2.bestj ∧
        (flmRow j2old i js nw best).2.besti + (flmRow j2old i js nw best).2.bestsize ≤ ahi ∧
        (flmRow j2old i js nw best).2.bestj + (flmRow j2old i js nw best).2.bestsize ≤ bhi := by
  induction js with
  | nil =>
      intro nw best _ hnw h1 h2 h3 h4
      exact ⟨hnw, h1, h2, h3, h4⟩
  | cons j js ih =>
      intro nw best hjs hnw h1 h2 h3 h4
      have hj := hjs j (by simp)
      have hrk1 : rowK j2old j ≤ i + 1 - alo := by
        cases j with
        | zero => rw [rowK_zero]; omega
        | succ m => rw [rowK_succ]; have := (hold m).1; omega
      have hrk2 : rowK j2old j ≤ j + 1 - blo := by
        cases j with
        | zero => rw [rowK_zero]; have : blo = 0 := by omega
                  omega
        | succ m => rw [rowK_succ]; have := (hold m).2; omega
      rw [flmRow_cons]
      refine ih _ _ (fun j' hj' => hjs j' (by simp [hj'])) ?_ ?_ ?_ ?_ ?_
      · intro j'
        by_cases hjj : j' = j
        · subst hjj; simp only [if_pos rfl]; exact ⟨hrk1, hrk2⟩
        · simpa [hjj] using hnw j'
      · by_cases hup : best.bestsize < rowK j2old j
        · rw [if_pos hup]; show alo ≤ i + 1 - rowK j2old j; omega
        · rw [if_neg hup]; exact h1
      · by_cases hup : best.bestsize < rowK j2old j
        · rw [if_pos hup]; show blo ≤ j + 1 - rowK j2old j
          have := hj.1
          omega
        · rw [if_neg hup]; exact h2
      · by_cases hup : best.bestsize < rowK j2old j
        · rw [if_pos hup]
          show i + 1 - rowK j2old j + rowK j2old j ≤ ahi
          omega
        · rw [if_neg hup]; exact h3
      · by_cases hup : best.bestsize < rowK j2old j
        · rw [if_pos hup]
          show j + 1 - rowK j2old j + rowK j2old j ≤ bhi
          have := hj.2
          omega
        · rw [if_neg hup]; exact h4

lemma flmFold_bounds (A : List Char) (bj : Char → List Nat) {alo ahi blo bhi : Nat} :
    ∀ (m s : Nat) (st : (Nat → Nat) × Best),
      alo ≤ s → s + m = ahi →
      (∀ j, st.1 j ≤ s - alo ∧ st.1 j ≤ j + 1 - blo) →
      alo ≤ st.2.besti → blo ≤ st.2.bestj →
      st.2.besti + st.2.bestsize ≤ ahi → st.2.bestj + st.2.bestsize ≤ bhi →
      (let res := (List.range' s m).foldl (flmStep A bj blo bhi) st
       alo ≤ res.2.besti ∧ blo ≤ res.2.bestj ∧
        res.2.besti + res.2.bestsize ≤ ahi ∧ res.2.bestj + res.2.bestsize ≤ bhi)
  | 0, s, st => by
      intro _ _ _ h1 h2 h3 h4
      exact ⟨h1, h2, h3, h4⟩
  | m + 1, s, st => by
      intro hs hsm hmap h1 h2 h3 h4
      rw [List.range'_succ, List.foldl_cons]
      have hrow := @flmRow_bounds alo ahi blo bhi
        st.1 s hs (by omega) (fun j => (hmap j))
        ((bj (A.getD s ' ')).filter (fun j => decide (blo ≤ j) && decide (j < bhi)))
        (fun _ => 0) st.2
        (fun j hj => by
          have := List.of_mem_filter hj
          simp only [Bool.and_eq_true, decide_eq_true_eq] at this
          exact this)
        (fun j => ⟨Nat.zero_le _, Nat.zero_le _⟩) h1 h2 h3 h4
      exact flmFold_bounds A bj m (s + 1) (flmStep A bj blo bhi st s)
        (by omega) (by omega)
        (fun j => ⟨le_trans (hrow.1 j).1 (by omega), (hrow.1 j).2⟩)
        hrow.2.1 hrow.2.2.1 hrow.2.2.2.1 hrow.2.2.2.2

lemma flmMain_bounds (A : List Char) (bj : Char → List Nat) (alo ahi blo bhi : Nat)
    (hab : alo ≤ ahi) (hbb : blo ≤ bhi) :
    alo ≤ (flmMain A bj alo ahi blo bhi).besti ∧
      blo ≤ (flmMain A bj alo ahi blo bhi).bestj ∧
      (flmMain A bj alo ahi blo bhi).besti + (flmMain A bj alo ahi blo bhi).bestsize ≤ ahi ∧
      (flmMain A bj alo ahi blo bhi).bestj + (flmMain A bj alo ahi blo bhi).bestsize ≤ bhi := by
  have := @flmFold_bounds A bj alo ahi blo bhi
    (ahi - alo) alo ((fun _ => 0), ⟨alo, blo, 0⟩)
    (le_refl alo) (by omega) (fun j => ⟨Nat.zero_le _, Nat.zero_le _⟩)
    (le_refl alo) (le_refl blo) (by simpa using hab) (by simpa using hbb)
  exact this

lemma extendLeft_bounds (A B : List Char) (alo blo ahi bhi : Nat) :
    ∀ (fuel : Nat) (best : Best),
      alo ≤ best.besti → blo ≤ best.bestj →
      best.besti + best.bestsize ≤ ahi → best.bestj + best.bestsize ≤ bhi →
      alo ≤ (extendLeft A B alo blo fuel best).besti ∧
        blo ≤ (extendLeft A B alo blo fuel best).bestj ∧
        (extendLeft A B alo blo fuel best).besti +
          (extendLeft A B alo blo fuel best).bestsize ≤ ahi ∧
        (extendLeft A B alo blo fuel best).bestj +
          (extendLeft A B alo blo fuel best).bestsize ≤ bhi
  | 0, best => by
      intro h1 h2 h3 h4
      exact ⟨h1, h2, h3, h4⟩
  | fuel + 1, best => by
      intro h1 h2 h3 h4
      rw [extendLeft]
      by_cases hg : alo < best.besti ∧ blo < best.bestj ∧
          A.getD (best.besti - 1) ' ' = B.getD (best.bestj - 1) ' '
      · rw [if_pos hg]
        exact extendLeft_bounds A B alo blo ahi bhi fuel _
          (by show alo ≤ best.besti - 1; omega)
          (by show blo ≤ best.bestj - 1; omega)
          (by show best.besti - 1 + (best.bestsize + 1) ≤ ahi; omega)
          (by show best.bestj - 1 + (best.bestsize + 1) ≤ bhi; omega)
      · rw [if_neg hg]
        exact ⟨h1, h2, h3, h4⟩

lemma extendRight_bounds (A B : List Char) (ahi bhi alo blo : Nat) :
    ∀ (fuel : Nat) (best : Best),
      alo ≤ best.besti → blo ≤ best.bestj →
      best.besti + best.bestsize ≤ ahi → best.bestj + best.bestsize ≤ bhi →
      alo ≤ (extendRight A B ahi bhi fuel best).besti ∧
        blo ≤ (extendRight A B ahi bhi fuel best).bestj ∧
        (extendRight A B ahi bhi fuel best).besti +
          (extendRight A B ahi bhi fuel best).bestsize ≤ ahi ∧
        (extendRight A B ahi bhi fuel best).bestj +
          (extendRight A B ahi bhi fuel best).bestsize ≤ bhi
  | 0, best => by
      intro h1 h2 h3 h4
      exact ⟨h1, h2, h3, h4⟩
  | fuel + 1, best => by
      intro h1 h2 h3 h4
      rw [extendRight]
      by_cases hg : best.besti + best.bestsize < ahi ∧ best.bestj + best.bestsize < bhi ∧
          A.getD (best.besti + best.bestsize) ' ' = B.getD (best.bestj + best.bestsize) ' '
      · rw [if_pos hg]
        exact extendRight_bounds A B ahi bhi alo blo fuel _ h1 h2
          (by show best.besti + (best.bestsize + 1) ≤ ahi; omega)
          (by show best.bestj + (best.bestsize + 1) ≤ bhi; omega)
      · rw [if_neg hg]
        exact ⟨h1, h2, h3, h4⟩

lemma find_longest_match_bounds (A B : List Char) (alo ahi blo bhi : Nat)
    (hab : alo ≤ ahi) (hbb : blo ≤ bhi) :
    alo ≤ (find_longest_match A B alo ahi blo bhi).besti ∧
      blo ≤ (find_longest_match A B alo ahi blo bhi).bestj ∧
      (find_longest_match A B alo ahi blo bhi).besti +
        (find_longest_match A B alo ahi blo bhi).bestsize ≤ ahi ∧
      (find_longest_match A B alo ahi blo bhi).bestj +
        (find_longest_match A B alo ahi blo bhi).bestsize ≤ bhi := by
  have h1 := flmMain_bounds A (b2j B) alo ahi blo bhi hab hbb
  have h2 := extendLeft_bounds A B alo blo ahi bhi
    (flmMain A (b2j B) alo ahi blo bhi).besti (flmMain A (b2j B) alo ahi blo bhi)
    h1.1 h1.2.1 h1.2.2.1 h1.2.2.2
  exact extendRight_bounds A B ahi bhi alo blo ahi _ h2.1 h2.2.1 h2.2.2.1 h2.2.2.2

lemma matchTotal_le (A B : List Char) :
    ∀ (fuel alo ahi blo bhi : Nat), alo ≤ ahi → blo ≤ bhi →
      matchTotal A B fuel alo ahi blo bhi ≤ ahi - alo ∧
        matchTotal A B fuel alo ahi blo bhi ≤ bhi - blo
  | 0, alo, ahi, blo, bhi => by
      intro _ _
      exact ⟨Nat.zero_le _, Nat.zero_le _⟩
  | fuel + 1, alo, ahi, blo, bhi => by
      intro hab hbb
      rw [matchTotal]
      by_cases hz : (find_longest_match A B alo ahi blo bhi).bestsize = 0
      · rw [if_pos hz]
        exact ⟨Nat.zero_le _, Nat.zero_le _⟩
      · rw [if_neg hz]
        have hb := find_longest_match_bounds A B alo ahi blo bhi hab hbb
        have hl := matchTotal_le A B fuel alo (find_longest_match A B alo ahi blo bhi).besti
          blo (find_longest_match A B alo ahi blo bhi).bestj (by omega) (by omega)
        have hr := matchTotal_le A B fuel
          ((find_longest_match A B alo ahi blo bhi).besti +
            (find_longest_match A B alo ahi blo bhi).bestsize) ahi
          ((find_longest_match A B alo ahi blo bhi).bestj +
            (find_longest_match A B alo ahi blo bhi).bestsize) bhi
          (by omega) (by omega)
        omega

lemma smRatio_nonneg (A B : List Char) : 0 ≤ smRatio A B := by
  rw [smRatio]
  by_cases h : A.length + B.length = 0
  · rw [if_pos h]; norm_num
  · rw [if_neg h]
    apply div_nonneg
    · positivity
    · positivity

lemma smRatio_le_one (A B : List Char) : smRatio A B ≤ 1 := by
  rw [smRatio]
  by_cases h : A.length + B.length = 0
  · rw [if_pos h]
  · rw [if_neg h]
    have hm := matchTotal_le A B (A.length + B.length) 0 A.length 0 B.length
      (Nat.zero_le _) (Nat.zero_le _)
    have hpos : (0 : ℚ) < (A.length : ℚ) + (B.length : ℚ) := by
      have h0 : 0 < A.length + B.length := Nat.pos_of_ne_zero h
      exact_mod_cast h0
    rw [div_le_one hpos]
    have h2 : 2 * matchTotal A B (A.length + B.length) 0 A.length 0 B.length ≤
        A.length + B.length := by omega
    calc (2 * (matchTotal A B (A.length + B.length) 0 A.length 0 B.length) : ℚ)
        = ((2 * matchTotal A B (A.length + B.length) 0 A.length 0 B.length : ℕ) : ℚ) := by
          push_cast; ring
      _ ≤ ((A.length + B.length : ℕ) : ℚ) := by exact_mod_cast Nat.cast_le.mpr h2
      _ = (A.length : ℚ) + (B.length : ℚ) := by push_cast; ring

/-! ## Self-comparison: find_longest_match on two copies of the same
string returns the full range

The main loop tracks, for each cell (i, j), the length of the chain of
consecutive matches ending there; on a self-comparison the tracked value
of the diagonal cell (i, i) is diagD t i, the number of consecutive
trailing rows up to i whose character survives the autojunk purge, and
no off-diagonal cell can strictly exceed the running best, so the best
block stays on the diagonal.  The extension loops then grow a diagonal
block to the whole range (elements at equal positions are equal and
bjunk is empty), whatever characters the purge removed from b2j. -/

/-- Tracked length of the diagonal chain ending at row i when comparing
t with itself: it resets at rows whose character was purged from b2j. -/
def diagD (t : List Char) : Nat → Nat
  | 0 => if b2j t (t.getD 0 ' ') = [] then 0 else 1
  | i + 1 => if b2j t (t.getD (i + 1) ' ') = [] then 0 else diagD t i + 1

/-- diagD at the previous row, with 0 before row 0. -/
def diagDPrev (t : List Char) : Nat → Nat
  | 0 => 0
  | i + 1 => diagD t i

lemma diagD_eq (t : List Char) (i : Nat) :
    diagD t i = if b2j t (t.getD i ' ') = [] then 0 else diagDPrev t i + 1 := by
  cases i <;> rfl

lemma diagD_le (t : List Char) : ∀ i, diagD t i ≤ i + 1
  | 0 => by rw [diagD]; split <;> omega
  | i + 1 => by
      rw [diagD]
      split
      · omega
      · have := diagD_le t i
        omega

lemma mem_positionsOf {b : List Char} {c : Char} {j : Nat} :
    j ∈ positionsOf b c ↔ j < b.length ∧ b.getD j ' ' = c := by
  rw [positionsOf, List.mem_filter, List.mem_range]
  simp

lemma mem_b2j {b : List Char} {c : Char} {j : Nat} (h : j ∈ b2j b c) :
    j < b.length ∧ b.getD j ' ' = c := by
  rw [b2j] at h
  split at h
  · exact absurd h (List.not_mem_nil j)
  · exact mem_positionsOf.mp h

lemma mem_b2j_self {t : List Char} {i : Nat} (hi : i < t.length)
    (hne : b2j t (t.getD i ' ') ≠ []) : i ∈ b2j t (t.getD i ' ') := by
  by_cases hc : 200 ≤ t.length ∧
      t.length / 100 + 1 < (positionsOf t (t.getD i ' ')).length
  · exact absurd (by rw [b2j, if_pos hc]) hne
  · rw [b2j, if_neg hc]
    exact mem_positionsOf.mpr ⟨hi, rfl⟩

lemma b2j_pairwise (b : List Char) (c : Char) : (b2j b c).Pairwise (· < ·) := by
  rw [b2j]
  split
  · exact List.Pairwise.nil
  · exact (List.pairwise_lt_range b.length).filter _

lemma flmRow_self (t : List Char) (i : Nat) (hi : i < t.length)
    (j2old : Nat → Nat)
    (HO1 : ∀ j, j2old j ≤ diagD t j)
    (HO3 : ∀ j, j2old j ≤ diagDPrev t i)
    (HO2 : ∀ r, i = r + 1 → j2old r = diagD t r)
    (hrow : b2j t (t.getD i ' ') ≠ []) :
    ∀ (js : List Nat) (nw : Nat → Nat) (best : Best),
      js.Pairwise (· < ·) →
      (∀ j ∈ js, j ∈ b2j t (t.getD i ' ')) →
      (∀ j, nw j ≤ diagD t j) →
      (∀ j, nw j ≤ diagD t i) →
      best.besti = best.bestj →
      best.besti + best.bestsize ≤ i + 1 →
      (∀ r, r < i → diagD t r ≤ best.bestsize) →
      ((i ∈ js) ∨ (nw i = diagD t i ∧ diagD t i ≤ best.bestsize)) →
      (∀ j, (flmRow j2old i js nw best).1 j ≤ diagD t j) ∧
        (∀ j, (flmRow j2old i js nw best).1 j ≤ diagD t i) ∧
        (flmRow j2old i js nw best).1 i = diagD t i ∧
        (flmRow j2old i js nw best).2.besti = (flmRow j2old i js nw best).2.bestj ∧
        (flmRow j2old i js nw best).2.besti + (flmRow j2old i js nw best).2.bestsize
          ≤ i + 1 ∧
        (∀ r, r < i + 1 → diagD t r ≤ (flmRow j2old i js nw best).2.bestsize) := by
  have hdi : diagD t i = diagDPrev t i + 1 := by rw [diagD_eq, if_neg hrow]
  intro js
  induction js with
  | nil =>
      intro nw best _ _ hnw1 hnw2 hb1 hb2 hb3 hphase
      rcases hphase with hin | ⟨hnwi, hdle⟩
      · exact absurd hin (List.not_mem_nil i)
      · refine ⟨hnw1, hnw2, hnwi, hb1, hb2, ?_⟩
        intro r hr
        rcases Nat.lt_succ_iff_lt_or_eq.mp hr with hr' | rfl
        · exact hb3 r hr'
        · exact hdle
  | cons j js ih =>
      intro nw best hpw hmem hnw1 hnw2 hb1 hb2 hb3 hphase
      have hjmem := hmem j (by simp)
      obtain ⟨hjn, hjc⟩ := mem_b2j hjmem
      have hnonpopj : b2j t (t.getD j ' ') ≠ [] := by rw [hjc]; exact hrow
      have hdj : diagD t j = diagDPrev t j + 1 := by rw [diagD_eq, if_neg hnonpopj]
      have hK1 : rowK j2old j ≤ diagD t j := by
        cases j with
        | zero => rw [rowK_zero, hdj]; omega
        | succ m =>
            rw [rowK_succ, hdj]
            show j2old m + 1 ≤ diagD t m + 1
            exact Nat.add_le_add_right (HO1 m) 1
      have hK2 : rowK j2old j ≤ diagD t i := by
        cases j with
        | zero => rw [rowK_zero, hdi]; omega
        | succ m =>
            rw [rowK_succ, hdi]
            exact Nat.add_le_add_right (HO3 m) 1
      have hpw' := List.pairwise_cons.mp hpw
      rw [flmRow_cons]
      by_cases hji : j = i
      · subst hji
        have hK3 : rowK j2old j = diagD t j := by
          cases j with
          | zero => rw [rowK_zero, hdj]; rfl
          | succ m =>
              rw [rowK_succ, hdj]
              show j2old m + 1 = diagD t m + 1
              rw [HO2 m rfl]
        by_cases hup : best.bestsize < rowK j2old j
        · rw [if_pos hup]
          refine ih _ _ hpw'.2 (fun j' hj' => hmem j' (by simp [hj'])) ?_ ?_ ?_ ?_ ?_ ?_
          · intro j'
            by_cases hjj : j' = j
            · subst hjj; simp only [if_pos rfl]; exact hK1
            · simpa [hjj] using hnw1 j'
          · intro j'
            by_cases hjj : j' = j
            · subst hjj; simp only [if_pos rfl]; exact hK2
            · simpa [hjj] using hnw2 j'
          · rfl
          · show j + 1 - rowK j2old j + rowK j2old j ≤ j + 1
            have := diagD_le t j
            omega
          · intro r hr
            show diagD t r ≤ rowK j2old j
            exact le_trans (hb3 r hr) (le_of_lt hup)
          · right
            constructor
            · simp only [if_pos rfl]
              exact hK3
            · show diagD t j ≤ rowK j2old j
              rw [hK3]
        · rw [if_neg hup]
          refine ih _ _ hpw'.2 (fun j' hj' => hmem j' (by simp [hj'])) ?_ ?_ hb1 hb2 hb3 ?_
          · intro j'
            by_cases hjj : j' = j
            · subst hjj; simp only [if_pos rfl]; exact hK1
            · simpa [hjj] using hnw1 j'
          · intro j'
            by_cases hjj : j' = j
            · subst hjj; simp only [if_pos rfl]; exact hK2
            · simpa [hjj] using hnw2 j'
          · right
            constructor
            · simp only [if_pos rfl]
              exact hK3
            · rw [← hK3]
              exact le_of_not_lt hup
      · have hnup : ¬ best.bestsize < rowK j2old j := by
          rcases hphase with hin | ⟨_, hdle⟩
          · have hin' : i ∈ js := by
              rcases List.mem_cons.mp hin with h | h
              · exact absurd h.symm hji
              · exact h
            have hjlt : j < i := hpw'.1 i hin'
            have := hb3 j hjlt
            omega
          · have := hK2
            omega
        rw [if_neg hnup]
        refine ih _ _ hpw'.2 (fun j' hj' => hmem j' (by simp [hj'])) ?_ ?_ hb1 hb2 hb3 ?_
        · intro j'
          by_cases hjj : j' = j
          · subst hjj; simp only [if_pos rfl]; exact hK1
          · simpa [hjj] using hnw1 j'
        · intro j'
          by_cases hjj : j' = j
          · subst hjj; simp only [if_pos rfl]; exact hK2
          · simpa [hjj] using hnw2 j'
        · rcases hphase with hin | ⟨hnwi, hdle⟩
          · left
            rcases List.mem_cons.mp hin with h | h
            · exact absurd h.symm hji
            · exact h
          · right
            refine ⟨?_, hdle⟩
            have : ¬ i = j := fun h => hji h.symm
            simpa [this] using hnwi

lemma flmFold_self (t : List Char) :
    ∀ (m s e : Nat) (st : (Nat → Nat) × Best),
      s + m = e → e ≤ t.length →
      (∀ j, st.1 j ≤ diagD t j) →
      (∀ j, st.1 j ≤ diagDPrev t s) →
      (∀ r, s = r + 1 → st.1 r = diagD t r) →
      st.2.besti = st.2.bestj →
      st.2.besti + st.2.bestsize ≤ s →
      (∀ r, r < s → diagD t r ≤ st.2.bestsize) →
      ((List.range' s m).foldl (flmStep t (b2j t) 0 t.length) st).2.besti =
          ((List.range' s m).foldl (flmStep t (b2j t) 0 t.length) st).2.bestj ∧
        ((List.range' s m).foldl (flmStep t (b2j t) 0 t.length) st).2.besti +
          ((List.range' s m).foldl (flmStep t (b2j t) 0 t.length) st).2.bestsize ≤ e ∧
        (∀ r, r < e →
          diagD t r ≤ ((List.range' s m).foldl (flmStep t (b2j t) 0 t.length) st).2.bestsize)
  | 0, s, e, st => by
      intro he _ _ _ _ hb1 hb2 hb3
      refine ⟨hb1, ?_, ?_⟩
      · show st.2.besti + st.2.bestsize ≤ e
        omega
      · intro r hr
        show diagD t r ≤ st.2.bestsize
        exact hb3 r (by omega)
  | m + 1, s, e, st => by
      intro he het hm1 hm2 hm3 hb1 hb2 hb3
      rw [List.range'_succ, List.foldl_cons]
      have hsn : s < t.length := by omega
      by_cases hrow : b2j t (t.getD s ' ') = []
      · have hstep : flmStep t (b2j t) 0 t.length st s = ((fun _ => 0), st.2) := by
          rw [flmStep, hrow]
          rfl
        rw [hstep]
        have hds : diagD t s = 0 := by rw [diagD_eq, if_pos hrow]
        exact flmFold_self t m (s + 1) e ((fun _ => 0), st.2)
          (by omega) het (fun j => Nat.zero_le _) (fun j => Nat.zero_le _)
          (fun r hr => by
            have hrs : r = s := by omega
            subst hrs
            show 0 = diagD t r
            rw [hds])
          hb1
          (by show st.2.besti + st.2.bestsize ≤ s + 1; omega)
          (fun r hr => by
            rcases Nat.lt_succ_iff_lt_or_eq.mp hr with hr' | rfl
            · exact hb3 r hr'
            · rw [hds]; exact Nat.zero_le _)
      · have hrs := flmRow_self t s hsn st.1 hm1 hm2 hm3 hrow
          ((b2j t (t.getD s ' ')).filter (fun j => decide (0 ≤ j) && decide (j < t.length)))
          (fun _ => 0) st.2
          ((b2j_pairwise t (t.getD s ' ')).filter _)
          (fun j hj => (List.mem_filter.mp hj).1)
          (fun j => Nat.zero_le _) (fun j => Nat.zero_le _)
          hb1 (by omega) hb3
          (Or.inl (List.mem_filter.mpr ⟨mem_b2j_self hsn hrow, by simp [hsn]⟩))
        exact flmFold_self t m (s + 1) e (flmStep t (b2j t) 0 t.length st s)
          (by omega) het hrs.1 (fun j => hrs.2.1 j)
          (fun r hr => by
            have hrw : r = s := by omega
            subst hrw
            exact hrs.2.2.1)
          hrs.2.2.2.1 hrs.2.2.2.2.1 hrs.2.2.2.2.2

lemma flmMain_self (t : List Char) :
    (flmMain t (b2j t) 0 t.length 0 t.length).besti =
        (flmMain t (b2j t) 0 t.length 0 t.length).bestj ∧
      (flmMain t (b2j t) 0 t.length 0 t.length).besti +
        (flmMain t (b2j t) 0 t.length 0 t.length).bestsize ≤ t.length := by
  have h := flmFold_self t t.length 0 t.length ((fun _ => 0), ⟨0, 0, 0⟩)
    (by omega) (le_refl _) (fun j => Nat.zero_le _) (fun j => Nat.zero_le _)
    (fun r hr => by omega)
    rfl (Nat.le_refl 0) (fun r hr => absurd hr (Nat.not_lt_zero r))
  rw [flmMain, Nat.sub_zero]
  exact ⟨h.1, h.2.1⟩

lemma extendLeft_self (t : List Char) :
    ∀ (fuel d s : Nat), d ≤ fuel →
      extendLeft t t 0 0 fuel ⟨d, d, s⟩ = ⟨0, 0, s + d⟩
  | 0, d, s => by
      intro hd
      have hd0 : d = 0 := by omega
      subst hd0
      rfl
  | fuel + 1, 0, s => by
      intro _
      rw [extendLeft, if_neg (by simp)]
      simp
  | fuel + 1, d + 1, s => by
      intro hd
      rw [extendLeft, if_pos (by exact ⟨Nat.succ_pos d, Nat.succ_pos d, rfl⟩)]
      show extendLeft t t 0 0 fuel ⟨d, d, s + 1⟩ = ⟨0, 0, s + (d + 1)⟩
      rw [extendLeft_self t fuel d (s + 1) (by omega)]
      congr 1
      omega

lemma extendRight_self (t : List Char) :
    ∀ (fuel s : Nat), s ≤ t.length → t.length ≤ s + fuel →
      extendRight t t t.length t.length fuel ⟨0, 0, s⟩ = ⟨0, 0, t.length⟩
  | 0, s => by
      intro h1 h2
      have hs : s = t.length := by omega
      subst hs
      rfl
  | fuel + 1, s => by
      intro h1 h2
      by_cases hs : s < t.length
      · rw [extendRight, if_pos (by exact ⟨by simpa using hs, by simpa using hs, rfl⟩)]
        show extendRight t t t.length t.length fuel ⟨0, 0, s + 1⟩ = ⟨0, 0, t.length⟩
        exact extendRight_self t fuel (s + 1) (by omega) (by omega)
      · have hs' : s = t.length := by omega
        subst hs'
        rw [extendRight, if_neg (by simp)]

lemma find_longest_match_self (t : List Char) :
    find_longest_match t t 0 t.length 0 t.length = ⟨0, 0, t.length⟩ := by
  have hm := flmMain_self t
  show extendRight t t t.length t.length t.length
    (extendLeft t t 0 0 (flmMain t (b2j t) 0 t.length 0 t.length).besti
      (flmMain t (b2j t) 0 t.length 0 t.length)) = ⟨0, 0, t.length⟩
  rcases hflm : flmMain t (b2j t) 0 t.length 0 t.length with ⟨bi, bj, bs⟩
  rw [hflm] at hm
  simp only at hm
  obtain ⟨heq, hle⟩ := hm
  subst heq
  show extendRight t t t.length t.length t.length
    (extendLeft t t 0 0 bi ⟨bi, bi, bs⟩) = ⟨0, 0, t.length⟩
  rw [extendLeft_self t bi bi bs (le_refl bi)]
  exact extendRight_self t t.length (bs + bi) (by omega) (by omega)

lemma extendLeft_stop (A B : List Char) (alo blo : Nat) (fuel : Nat) (best : Best)
    (h : ¬(alo < best.besti ∧ blo < best.bestj ∧
      A.getD (best.besti - 1) ' ' = B.getD (best.bestj - 1) ' ')) :
    extendLeft A B alo blo fuel best = best := by
  cases fuel with
  | zero => rfl
  | succ fuel => rw [extendLeft, if_neg h]

lemma extendRight_stop (A B : List Char) (ahi bhi : Nat) (fuel : Nat) (best : Best)
    (h : ¬(best.besti + best.bestsize < ahi ∧ best.bestj + best.bestsize < bhi ∧
      A.getD (best.besti + best.bestsize) ' ' =
        B.getD (best.bestj + best.bestsize) ' ')) :
    extendRight A B ahi bhi fuel best = best := by
  cases fuel with
  | zero => rfl
  | succ fuel => rw [extendRight, if_neg h]

lemma find_longest_match_empty (A B : List Char) (alo blo bhi : Nat) :
    find_longest_match A B alo alo blo bhi = ⟨alo, blo, 0⟩ := by
  have h1 : flmMain A (b2j B) alo alo blo bhi = ⟨alo, blo, 0⟩ := by
    rw [flmMain, Nat.sub_self]
    rfl
  show extendRight A B alo bhi alo
    (extendLeft A B alo blo (flmMain A (b2j B) alo alo blo bhi).besti
      (flmMain A (b2j B) alo alo blo bhi)) = ⟨alo, blo, 0⟩
  rw [h1]
  rw [extendLeft_stop A B alo blo _ _ (by simp)]
  rw [extendRight_stop A B alo bhi _ _ (by simp)]

lemma matchTotal_empty_rows (A B : List Char) (blo bhi : Nat) :
    ∀ (fuel alo : Nat), matchTotal A B fuel alo alo blo bhi = 0
  | 0, alo => rfl
  | fuel + 1, alo => by
      rw [matchTotal, find_longest_match_empty]
      rfl

lemma matchTotal_self (t : List Char) (hn : t.length ≠ 0) :
    matchTotal t t (t.length + t.length) 0 t.length 0 t.length = t.length := by
  obtain ⟨k, hk⟩ : ∃ k, t.length + t.length = k + 1 := ⟨t.length + t.length - 1, by omega⟩
  rw [hk, matchTotal, find_longest_match_self]
  show (if t.length = 0 then 0
    else t.length + matchTotal t t k 0 0 0 0 +
      matchTotal t t k (0 + t.length) t.length (0 + t.length) t.length) = t.length
  rw [if_neg hn, matchTotal_empty_rows, Nat.zero_add, matchTotal_empty_rows]
  omega

lemma smRatio_self (t : List Char) : smRatio t t = 1 := by
  rw [smRatio]
  by_cases h : t.length + t.length = 0
  · rw [if_pos h]
  · rw [if_neg h]
    have hn : t.length ≠ 0 := by omega
    rw [matchTotal_self t hn]
    have hq : (t.length : ℚ) ≠ 0 := by exact_mod_cast hn
    field_simp
    ring

lemma title_similarity_self (x : String) (hx : x ≠ "") :
    title_similarity x x = 1 := by
  rw [title_similarity_eq, if_neg (by rintro (h | h) <;> exact hx h), smRatio_self]

/-- C2 as amended: the similarity returns 1.0 on any non-empty string
compared with itself; returns 0.0 when either argument is empty; always
lies in [0, 1]; and on non-empty inputs is the matching-blocks ratio of
the lowercased, non-alphanumeric-stripped strings.  Symmetry, which the
original claim also asserted, fails (see the counterexample). -/
theorem C2_similarity_amended (x a b : String) :
    (x ≠ "" → title_similarity x x = 1) ∧
      title_similarity "" b = 0 ∧
      title_similarity a "" = 0 ∧
      0 ≤ title_similarity a b ∧ title_similarity a b ≤ 1 ∧
      (a ≠ "" → b ≠ "" → title_similarity a b = smRatio (simNorm a) (simNorm b)) := by
  refine ⟨title_similarity_self x, ?_, ?_, ?_, ?_, ?_⟩
  · rw [title_similarity_eq, if_pos (Or.inl rfl)]
  · rw [title_similarity_eq, if_pos (Or.inr rfl)]
  · rw [title_similarity_eq]
    by_cases h : a = "" ∨ b = ""
    · rw [if_pos h]
    · rw [if_neg h]; exact smRatio_nonneg _ _
  · rw [title_similarity_eq]
    by_cases h : a = "" ∨ b = ""
    · rw [if_pos h]; norm_num
    · rw [if_neg h]; exact smRatio_le_one _ _
  · intro ha hb
    rw [title_similarity_eq, if_neg (by rintro (h | h); exacts [ha h, hb h])]

/-- Witness for the amended C2 at concrete inputs. -/
theorem C2_similarity_amended_witness :
    title_similarity "Ab" "Ab" = 1 ∧
      title_similarity "xy" "z" = smRatio (simNorm "xy") (simNorm "z") :=
  ⟨(C2_similarity_amended "Ab" "xy" "z").1 (by decide),
   (C2_similarity_amended "Ab" "xy" "z").2.2.2.2.2 (by decide) (by decide)⟩

/-! ## Claim C5 : terminal outcomes of one resolution round -/

lemma soft_year_filter_nil (yr : Option Int) (tol : Int) :
    soft_year_filter [] yr tol = [] := by
  cases yr <;> rfl

/-- C5: in one round, if the year-filtered, deduplicated candidate set
is empty the outcome is NotFound; if exactly one candidate remains,
"always ask" is off and auto-pick produced nothing truthy, the outcome
is Resolved with that sole candidate's (non-empty) image URL, not
Escalated; and with zero enabled providers the aggregate is empty and
the outcome is NotFound. -/
theorem C5_resolution_round (raw : List Candidate) (yr : Option Int) (tol : Int)
    (ask : Bool) (album : String) :
    (dedup_by_image (soft_year_filter raw yr tol) = [] →
      resolution_round raw yr tol ask album = .NotFound) ∧
      (∀ c : Candidate, dedup_by_image (soft_year_filter raw yr tol) = [c] →
        ask = false →
        (maybe_autopick album yr tol [c]).getD "" = "" →
        ∃ u, c.image = some u ∧ u ≠ "" ∧
          resolution_round raw yr tol ask album = .Resolved u) ∧
      resolution_round (aggregate []) yr tol ask album = .NotFound := by
  refine ⟨?_, ?_, ?_⟩
  · intro h
    simp only [resolution_round]
    rw [h]
    simp
  · intro c h1 hask hauto
    subst hask
    obtain ⟨u, himg, hu, _⟩ := dedupAux_good [] (soft_year_filter raw yr tol) c
      (by rw [show dedupAux [] (soft_year_filter raw yr tol) =
            dedup_by_image (soft_year_filter raw yr tol) from rfl, h1]; simp)
    refine ⟨u, himg, hu, ?_⟩
    simp only [resolution_round]
    rw [h1]
    rw [if_neg (by simp)]
    simp only [Bool.false_eq_true, if_false]
    rw [if_pos hauto]
    rw [if_neg (by simp)]
    rw [show ([c].headD default) = c from rfl, himg]
    rfl
  · show resolution_round [] yr tol ask album = .NotFound
    simp only [resolution_round]
    rw [soft_year_filter_nil]
    simp [dedup_by_image, dedupAux]

/-- Witness for C5: a single candidate with no confident auto-pick is
resolved directly to its image URL. -/
theorem C5_resolution_round_witness :
    ∃ u, (⟨some "t", none, some "u"⟩ : Candidate).image = some u ∧ u ≠ "" ∧
      resolution_round [⟨some "t", none, some "u"⟩] none 0 false "" =
        .Resolved u :=
  (C5_resolution_round [⟨some "t", none, some "u"⟩] none 0 false "").2.1
    ⟨some "t", none, some "u"⟩ (by decide) rfl (by decide)
